import Mathlib

/-!
Verification of the task-store / recommendation subsystem and of the
session-layer text utilities of the `agents-toolkit` repository.

The session layer (`session-example.py`) is present in the sources and is
embedded directly.  The core modules it imports (`todo.py`, `recommender.py`,
the store) are not part of the visible sources; following the specification
document, those components are modelled from the spec's words and the claims
about them are settled against that model.
-/

namespace AgentsToolkit

/-! ## Generic text utilities

Text is embedded as `List Char`.  These helpers mirror the Python string
operations used by the session layer: `str.split('\n')`, `'\n'.join`,
`str.rstrip()` / `str.strip()`, `str.lower()` and the `in` substring test.
-/

/-- Python `str.isspace` for the characters that can actually occur in the
code paths we model: ASCII whitespace, the `\x1c`–`\x1f` separators, NEL and
NBSP.  (`rstrip`/`strip` with no argument strip exactly these.) -/
def isPySpace (c : Char) : Bool :=
  c = ' ' || c = '\t' || c = '\n' || c = '\r' || c = '\x0b' || c = '\x0c' ||
  c = '\x1c' || c = '\x1d' || c = '\x1e' || c = '\x1f' ||
  c = '\x85' || c.toNat = 0xa0

/-- Python `line.rstrip()`: drop trailing whitespace. -/
def pyRstrip (l : List Char) : List Char :=
  (l.reverse.dropWhile isPySpace).reverse

/-- Python `s.strip()`: drop leading and trailing whitespace. -/
def pyStrip (l : List Char) : List Char :=
  pyRstrip (l.dropWhile isPySpace)

/-- Python `s.lower()` (ASCII case folding, which is all the embedded code
compares against). -/
def pyLower (l : List Char) : List Char :=
  l.map Char.toLower

/-- Python `needle in hay` substring test. -/
def containsSub (needle : List Char) : List Char → Bool
  | [] => needle == []
  | c :: cs => ((c :: cs).take needle.length == needle) || containsSub needle cs

/-- Python `content.split('\n')`: split at every newline, keeping empty
pieces; the result is always non-empty. -/
def splitNl : List Char → List (List Char)
  | [] => [[]]
  | c :: cs =>
    if c = '\n' then [] :: splitNl cs
    else
      match splitNl cs with
      | [] => [[c]]
      | l :: ls => (c :: l) :: ls

/-- Python `'\n'.join(lines)`. -/
def joinNl : List (List Char) → List Char
  | [] => []
  | [l] => l
  | l :: ls => l ++ '\n' :: joinNl ls

/-! ## `clean_transcript` (session-example.py, lines 176–206)

The cleaning pipeline: remove ANSI escape sequences, remove control
characters other than newline and tab, then drop every line whose
`rstrip`-ped form equals the previous kept line's `rstrip`-ped form, and
join the survivors back with newlines.
-/

/-- Characters removed by `re.sub(r'[\x00-\x08\x0b\x0c\x0e-\x1f\x7f]', '', _)`:
control characters except newline (`\n` = 0x0a) and tab (`\t` = 0x09). -/
def isCtrl (c : Char) : Bool :=
  c.toNat ≤ 0x08 || c.toNat = 0x0b || c.toNat = 0x0c ||
  (0x0e ≤ c.toNat && c.toNat ≤ 0x1f) || c.toNat = 0x7f

/-- The control-character removal step of `clean_transcript`. -/
def ctrlRemove (cs : List Char) : List Char :=
  cs.filter (fun c => !isCtrl c)

/-- Attempt to match `\x1b\[[0-9;]*[a-zA-Z]` immediately after the leading
`ESC [`; returns the remainder of the input after the match.  The classes
`[0-9;]` and `[a-zA-Z]` are disjoint, so the greedy star needs no
backtracking. -/
def ansiCsiTail : List Char → Option (List Char)
  | [] => none
  | c :: cs =>
    if c.isDigit || c = ';' then ansiCsiTail cs
    else if c.isAlpha then some cs
    else none

/-- Attempt to match `.*?\x07` (no newline, shortest match) after `ESC ]`;
returns the remainder after the terminating BEL. -/
def ansiOscTail : List Char → Option (List Char)
  | [] => none
  | c :: cs =>
    if c = '\x07' then some cs
    else if c = '\n' then none
    else ansiOscTail cs

/-- Attempt to match `.*?\x1b\\` (no newline, shortest match) after
`ESC P/X/^/_`; returns the remainder after the terminator. -/
def ansiStTail : List Char → Option (List Char)
  | [] => none
  | c :: cs =>
    if c = '\x1b' then
      match cs with
      | '\\' :: rest => some rest
      | _ => if c = '\n' then none else ansiStTail cs
    else if c = '\n' then none
    else ansiStTail cs

/-- Try the three alternatives of the pattern
`\x1b\[[0-9;]*[a-zA-Z]|\x1b\].*?\x07|\x1b[PX^_].*?\x1b\\` at a position whose
head is ESC; `cs` is the input after that ESC.  The alternatives are
distinguished by the character following ESC, so leftmost-alternative
matching reduces to this case split. -/
def ansiMatchTail : List Char → Option (List Char)
  | [] => none
  | c :: cs =>
    if c = '[' then ansiCsiTail cs
    else if c = ']' then ansiOscTail cs
    else if c = 'P' || c = 'X' || c = '^' || c = '_' then ansiStTail cs
    else none

/-- Fueled scanner for `ansi_pattern.sub('', content)`: at each position, if a
match of the pattern starts here, drop it and continue after it; otherwise
keep the character.  Every alternative starts with ESC, so non-ESC characters
are always kept.  Each step shortens the input, so `length + 1` fuel (as
supplied by `ansiSub`) never runs out. -/
def ansiSubGo : Nat → List Char → List Char
  | 0, cs => cs
  | _ + 1, [] => []
  | fuel + 1, c :: cs =>
    if c = '\x1b' then
      match ansiMatchTail cs with
      | some rest => ansiSubGo fuel rest
      | none => c :: ansiSubGo fuel cs
    else c :: ansiSubGo fuel cs

/-- The ANSI-escape removal step of `clean_transcript`. -/
def ansiSub (cs : List Char) : List Char :=
  ansiSubGo (cs.length + 1) cs

/-- The deduplication loop of `clean_transcript`: keep a line iff its
`rstrip`-ped form differs from `prev_line` (the `rstrip`-ped form of the last
kept line, initially `None`). -/
def dedupeLines (prev : Option (List Char)) : List (List Char) → List (List Char)
  | [] => []
  | l :: ls =>
    if some (pyRstrip l) = prev then dedupeLines prev ls
    else l :: dedupeLines (some (pyRstrip l)) ls

/-- The whole content transformation performed by `clean_transcript` on an
existing file. -/
def cleanContent (cs : List Char) : List Char :=
  joinNl (dedupeLines none (splitNl (ctrlRemove (ansiSub cs))))

/-- `clean_transcript` at the file level: `none` models a missing transcript
file (the function returns without writing); `some c` models a file with
content `c`, which is overwritten with the cleaned content. -/
def clean_transcript (file : Option (List Char)) : Option (List Char) :=
  match file with
  | none => none
  | some c => some (cleanContent c)

/-! ## `check_relevance_ai` and `load_relevant_resources`
(session-example.py, lines 31–68 and 91–120) -/

/-- The characters of `"<think>"`. -/
def openThink : List Char := ['<', 't', 'h', 'i', 'n', 'k', '>']

/-- The characters of `"</think>"`. -/
def closeThink : List Char := ['<', '/', 't', 'h', 'i', 'n', 'k', '>']

/-- Scan for the first occurrence of `</think>`; return what follows it, or
`none` if it never occurs.  With `re.DOTALL` the `.*?` before it crosses
newlines, so nothing terminates the search early. -/
def dropThroughClose : List Char → Option (List Char)
  | [] => none
  | c :: cs =>
    if (c :: cs).take 8 = closeThink then some ((c :: cs).drop 8)
    else dropThroughClose cs

/-- Fueled scanner for `re.sub(r'<think>.*?</think>', '', answer, flags=re.DOTALL)`:
at each `<think>` with a later `</think>`, drop everything through that first
`</think>` (shortest match) and continue; otherwise keep the character.  Each
step shortens the input, so the `length + 1` fuel supplied by `stripThink`
never runs out. -/
def stripThinkGo : Nat → List Char → List Char
  | 0, cs => cs
  | _ + 1, [] => []
  | fuel + 1, c :: cs =>
    if (c :: cs).take 7 = openThink then
      match dropThroughClose ((c :: cs).drop 7) with
      | some rest => stripThinkGo fuel rest
      | none => c :: stripThinkGo fuel cs
    else c :: stripThinkGo fuel cs

/-- The `<think>`-tag removal applied to the model's reply. -/
def stripThink (cs : List Char) : List Char :=
  stripThinkGo (cs.length + 1) cs

/-- The normalisation `check_relevance_ai` applies to the raw reply before the
substring tests: strip `<think>` tags, then `.strip().lower()`. -/
def processAnswer (reply : List Char) : List Char :=
  pyLower (pyStrip (stripThink reply))

/-- The environment `check_relevance_ai` runs in: the value of the
`OPENROUTER_API_KEY` config entry (`none` when absent), and the outcome of
the remote chat call (`none` models the call raising an exception, `some r`
a reply whose message content, `or ""`-defaulted, is `r`). -/
structure RelevanceEnv where
  apiKey : Option (List Char)
  chatReply : Option (List Char)
deriving DecidableEq

/-- `check_relevance_ai` (session-example.py, lines 31–68).  Despite the
`-> bool` annotation it returns `None` when the key is missing (or falsy) and
when the chat call raises; otherwise it returns
`"yes" in answer and "no" not in answer` on the normalised reply. -/
def check_relevance_ai (env : RelevanceEnv) : Option Bool :=
  match env.apiKey with
  | none => none
  | some k =>
    if k = [] then none
    else
      match env.chatReply with
      | none => none
      | some reply =>
        some (containsSub ['y', 'e', 's'] (processAnswer reply) &&
              !containsSub ['n', 'o'] (processAnswer reply))

/-- The truthiness test `if is_relevant:` applied by `load_relevant_resources`
to the result of `check_relevance_ai`: `None` and `False` are both falsy. -/
def relevanceTruthy (r : Option Bool) : Bool :=
  match r with
  | some true => true
  | _ => false

/-- `load_relevant_resources` (session-example.py, lines 91–120), abstracted
over the per-resource relevance outcomes: each resource is a pair of its
content and the `check_relevance_ai` result for it; the returned context
keeps exactly the contents whose result is truthy. -/
def load_relevant_resources (rs : List (List Char × Option Bool)) : List (List Char) :=
  (rs.filter (fun p => relevanceTruthy p.2)).map (fun p => p.1)

/-! ## Calendar dates

Modelled from the spec: the `todo` module holding the due/created timestamps
and the recurrence date arithmetic is not among the visible sources; the spec
asks for proleptic-Gregorian day/week/weekday/month advancement. -/

/-- A proleptic Gregorian calendar date. -/
structure Date where
  year : Nat
  month : Nat
  day : Nat
deriving DecidableEq

/-- Gregorian leap-year rule. -/
def isLeapYear (y : Nat) : Bool :=
  (y % 4 = 0 && y % 100 ≠ 0) || y % 400 = 0

/-- Number of days in month `m` of year `y`. -/
def daysInMonth (y m : Nat) : Nat :=
  if m = 2 then (if isLeapYear y then 29 else 28)
  else if m = 4 ∨ m = 6 ∨ m = 9 ∨ m = 11 then 30
  else 31

/-- The calendar day after `d`. -/
def nextDay (d : Date) : Date :=
  if d.day < daysInMonth d.year d.month then ⟨d.year, d.month, d.day + 1⟩
  else if d.month < 12 then ⟨d.year, d.month + 1, 1⟩
  else ⟨d.year + 1, 1, 1⟩

/-- Advance a date by `n` calendar days. -/
def addDays (d : Date) : Nat → Date
  | 0 => d
  | n + 1 => nextDay (addDays d n)

/-- Days contributed by the months strictly before month `m` of year `y`. -/
def daysBeforeMonth (y m : Nat) : Nat :=
  ((List.range (m - 1)).map (fun i => daysInMonth y (i + 1))).sum

/-- Rata-die day number: 0001-01-01 has number 1 (a Monday in the proleptic
Gregorian calendar). -/
def rataDie (d : Date) : Nat :=
  365 * (d.year - 1) + (d.year - 1) / 4 - (d.year - 1) / 100 + (d.year - 1) / 400 +
    daysBeforeMonth d.year d.month + d.day

/-- Saturday or Sunday (rata die `mod` 7 is 6 resp. 0). -/
def isWeekend (d : Date) : Bool :=
  rataDie d % 7 = 6 || rataDie d % 7 = 0

/-- The next calendar day, skipping over a weekend (weekends are at most two
consecutive days, so two skips suffice). -/
def nextBusinessDay (d : Date) : Date :=
  let d1 := nextDay d
  if isWeekend d1 then
    let d2 := nextDay d1
    if isWeekend d2 then nextDay d2 else d2
  else d1

/-- Advance a date by `n` weekdays, skipping weekends. -/
def addWeekdays (d : Date) : Nat → Date
  | 0 => d
  | n + 1 => nextBusinessDay (addWeekdays d n)

/-- Advance a date by `n` calendar months, carrying into the year and
clamping the day to the target month's length. -/
def addMonths (d : Date) (n : Nat) : Date :=
  let m0 := d.month - 1 + n
  let y := d.year + m0 / 12
  let m := m0 % 12 + 1
  ⟨y, m, min d.day (daysInMonth y m)⟩

/-! ## Recurrence rules and todo items

Modelled from the spec: `TodoItem` and its recurrence rule live in the
invisible `todo` module; the spec gives the fields and the `"every N <unit>"`
rule forms with unit ∈ {day, week, weekday, month}. -/

/-- The unit of an `"every N <unit>"` recurrence rule. -/
inductive RecUnit
  | day
  | week
  | weekday
  | month
deriving DecidableEq

/-- A recurrence rule `"every n unit"`. -/
structure Rule where
  unit : RecUnit
  n : Nat
deriving DecidableEq

/-- Next due date: the previous due date advanced by `n` units, the weekday
unit skipping weekends. -/
def advanceRule (r : Rule) (d : Date) : Date :=
  match r.unit with
  | .day => addDays d r.n
  | .week => addDays d (7 * r.n)
  | .weekday => addWeekdays d r.n
  | .month => addMonths d r.n

/-- Modelled from the spec: the `TodoItem` record of the invisible `todo`
module, with the fields §3 of the spec lists. -/
structure TodoItem where
  id : Nat
  slug : List Char
  text : List Char
  displayText : List Char
  done : Bool
  notes : List Char
  recurrence : Option Rule
  due : Date
  created : Date
deriving DecidableEq

/-- Modelled from the spec: the error taxonomy of §7 for the lookup and
mutation operations of the invisible `todo` module. -/
inductive TodoError
  | NotFound
  | AmbiguousMatch (candidates : List TodoItem)
  | AlreadyDone
  | PersistenceError
deriving DecidableEq

/-- The pending-prefix candidates of a token: pending items whose slug the
token is a prefix of. -/
def prefixCands (items : List TodoItem) (token : List Char) : List TodoItem :=
  items.filter (fun it => !it.done && token.isPrefixOf it.slug)

/-- Modelled from the spec: `TodoManager.resolve` of the invisible `todo`
module.  Exact slug match wins outright; otherwise a unique pending
prefix match is returned, several fail with `AmbiguousMatch` listing the
candidates, none fails with `NotFound`. -/
def resolve (items : List TodoItem) (token : List Char) : Except TodoError TodoItem :=
  match items.find? (fun it => it.slug == token) with
  | some it => .ok it
  | none =>
    match prefixCands items token with
    | [] => .error .NotFound
    | [it] => .ok it
    | a :: b :: rest => .error (.AmbiguousMatch (a :: b :: rest))

/-- An item with `done := true` and the completion notes set. -/
def setDone (it : TodoItem) (notes : List Char) : TodoItem :=
  { it with done := true, notes := notes }

/-- The collection with the item of id `tid` marked done. -/
def markedList (items : List TodoItem) (tid : Nat) (notes : List Char) : List TodoItem :=
  items.map (fun j => if j.id == tid then setDone j notes else j)

/-- A fresh id: strictly larger than every id in the collection. -/
def freshId (items : List TodoItem) : Nat :=
  (items.map (fun j => j.id)).foldr max 0 + 1

/-- The successor instance a recurring item spawns on completion: fresh id,
same text-derived fields, not done, due date advanced from the *stored* due
date by the rule, created now. -/
def spawnSuccessor (items : List TodoItem) (it : TodoItem) (r : Rule) (now : Date) : TodoItem :=
  { id := freshId items, slug := it.slug, text := it.text,
    displayText := it.displayText, done := false, notes := [],
    recurrence := some r, due := advanceRule r it.due, created := now }

/-- Modelled from the spec: `TodoManager.mark_done` of the invisible `todo`
module.  Unknown id fails with `NotFound`; re-marking a done item is the hard
error `AlreadyDone` (§9 resolves the open choice that way); otherwise the
item is marked done with the notes, and a recurring item additionally spawns
exactly one successor whose due date is computed from the stored due date,
never from `now`.  Returns the new collection and the successor, if any. -/
def markDone (items : List TodoItem) (tid : Nat) (notes : List Char) (now : Date) :
    Except TodoError (List TodoItem × Option TodoItem) :=
  match items.find? (fun j => j.id == tid) with
  | none => .error .NotFound
  | some it =>
    if it.done then .error .AlreadyDone
    else
      match it.recurrence with
      | none => .ok (markedList items tid notes, none)
      | some r =>
        .ok (markedList items tid notes ++ [spawnSuccessor items it r now],
             some (spawnSuccessor items it r now))

/-! ## Recommender

Modelled from the spec: the `recommender` module is not among the visible
sources; §4.3 asks for a pure function of the pending snapshot and `now`,
scoring overdue-ness, creation recency and explicit priority markers, each
score carrying a reason naming the dominant signal. -/

/-- Modelled from the spec: the `ScoredTask` record of the invisible
`recommender` module. -/
structure ScoredTask where
  item : TodoItem
  score : Nat
  reason : List Char
deriving DecidableEq

/-- The pending (`done == false`) snapshot. -/
def pendingOf (items : List TodoItem) : List TodoItem :=
  items.filter (fun it => !it.done)

/-- Days the item is overdue at `now` (0 when not yet due). -/
def overdueDays (now : Date) (it : TodoItem) : Nat :=
  rataDie now - rataDie it.due

/-- The overdue-ness signal: 10 points per overdue day. -/
def overdueScore (now : Date) (it : TodoItem) : Nat :=
  10 * overdueDays now it

/-- The recency-of-creation signal: up to 10 points, fading by age. -/
def recencyScore (now : Date) (it : TodoItem) : Nat :=
  10 - min 10 (rataDie now - rataDie it.created)

/-- The explicit-priority signal: 50 points when the text carries a `!`
priority marker. -/
def priorityScore (it : TodoItem) : Nat :=
  if containsSub ['!'] it.text then 50 else 0

/-- The weighted score of one pending item. -/
def scoreItem (now : Date) (it : TodoItem) : Nat :=
  overdueScore now it + recencyScore now it + priorityScore it

/-- The reason string: names the dominant signal, hence derivable from the
same inputs as the score. -/
def reasonFor (now : Date) (it : TodoItem) : List Char :=
  if overdueScore now it ≥ recencyScore now it ∧
      overdueScore now it ≥ priorityScore it then
    ['o', 'v', 'e', 'r', 'd', 'u', 'e']
  else if priorityScore it ≥ recencyScore now it then
    ['p', 'r', 'i', 'o', 'r', 'i', 't', 'y']
  else
    ['r', 'e', 'c', 'e', 'n', 't']

/-- The scored pending snapshot, in input order. -/
def scoredPending (items : List TodoItem) (now : Date) : List ScoredTask :=
  (pendingOf items).map (fun it => ⟨it, scoreItem now it, reasonFor now it⟩)

/-- Stable descending insertion: a task is placed before the first earlier
task whose score it meets, so equal scores keep input order. -/
def insertScored (x : ScoredTask) : List ScoredTask → List ScoredTask
  | [] => [x]
  | y :: ys => if x.score ≥ y.score then x :: y :: ys else y :: insertScored x ys

/-- Stable descending insertion sort by score. -/
def sortScored (l : List ScoredTask) : List ScoredTask :=
  l.foldr insertScored []

/-- Modelled from the spec: `get_recommendations` of the invisible
`recommender` module — the top-`count` scored pending items in descending
score order, ties broken by stable input order. -/
def get_recommendations (items : List TodoItem) (now : Date) (count : Nat) : List ScoredTask :=
  (sortScored (scoredPending items now)).take count

/-! ## Store

Modelled from the spec: the file-backed `Store` is not among the visible
sources; §4.1 and §6 ask for a structured text file, one record per task,
any schema that round-trips all `TodoItem` fields losslessly, saved with a
write-new-then-replace discipline. -/

/-- Escape a text field so that it fits on one line: backslashes and
newlines are escaped, everything else kept. -/
def escapeField : List Char → List Char
  | [] => []
  | c :: cs =>
    if c = '\\' then '\\' :: '\\' :: escapeField cs
    else if c = '\n' then '\\' :: 'n' :: escapeField cs
    else c :: escapeField cs

/-- Undo `escapeField`. -/
def unescapeField : List Char → List Char
  | [] => []
  | c :: cs =>
    if c = '\\' then
      match cs with
      | [] => ['\\']
      | d :: rest =>
        if d = '\\' then '\\' :: unescapeField rest
        else if d = 'n' then '\n' :: unescapeField rest
        else d :: unescapeField rest
    else c :: unescapeField cs

/-- Decimal digits of `n`, most significant first. -/
def natToChars (n : Nat) : List Char :=
  ((Nat.digits 10 n).map (fun d => Char.ofNat (48 + d))).reverse

/-- Parse decimal digits, most significant first. -/
def charsToNat (cs : List Char) : Nat :=
  Nat.ofDigits 10 (cs.reverse.map (fun c => c.toNat - 48))

/-- The tag line of a recurrence rule unit. -/
def unitTag : RecUnit → List Char
  | .day => ['d', 'a', 'y']
  | .week => ['w', 'e', 'e', 'k']
  | .weekday => ['w', 'e', 'e', 'k', 'd', 'a', 'y']
  | .month => ['m', 'o', 'n', 't', 'h']

/-- The two lines encoding an optional recurrence rule. -/
def encodeRec : Option Rule → List (List Char)
  | none => [['n', 'o', 'n', 'e'], natToChars 0]
  | some ⟨u, n⟩ => [unitTag u, natToChars n]

/-- Decode the two recurrence lines. -/
def decodeRec (kind nLine : List Char) : Option (Option Rule) :=
  if kind = ['n', 'o', 'n', 'e'] then some none
  else if kind = ['d', 'a', 'y'] then some (some ⟨.day, charsToNat nLine⟩)
  else if kind = ['w', 'e', 'e', 'k'] then some (some ⟨.week, charsToNat nLine⟩)
  else if kind = ['w', 'e', 'e', 'k', 'd', 'a', 'y'] then some (some ⟨.weekday, charsToNat nLine⟩)
  else if kind = ['m', 'o', 'n', 't', 'h'] then some (some ⟨.month, charsToNat nLine⟩)
  else none

/-- One record: the 14 lines encoding a `TodoItem`. -/
def encodeItem (it : TodoItem) : List (List Char) :=
  [natToChars it.id, escapeField it.slug, escapeField it.text,
   escapeField it.displayText, if it.done then ['1'] else ['0'],
   escapeField it.notes] ++ encodeRec it.recurrence ++
  [natToChars it.due.year, natToChars it.due.month, natToChars it.due.day,
   natToChars it.created.year, natToChars it.created.month, natToChars it.created.day]

/-- Decode one 14-line record. -/
def decodeItem (ls : List (List Char)) : Option TodoItem :=
  match ls with
  | [idL, slugL, textL, dispL, doneL, notesL, recKindL, recNL,
     dyL, dmL, ddL, cyL, cmL, cdL] =>
    match decodeRec recKindL recNL with
    | none => none
    | some rec' =>
      if doneL = ['1'] ∨ doneL = ['0'] then
        some { id := charsToNat idL, slug := unescapeField slugL,
               text := unescapeField textL, displayText := unescapeField dispL,
               done := doneL = ['1'], notes := unescapeField notesL,
               recurrence := rec',
               due := ⟨charsToNat dyL, charsToNat dmL, charsToNat ddL⟩,
               created := ⟨charsToNat cyL, charsToNat cmL, charsToNat cdL⟩ }
      else none
  | _ => none

/-- Decode a sequence of 14-line records. -/
def decodeItems (ls : List (List Char)) : Option (List TodoItem) :=
  if ls = [] then some []
  else if _h : 14 ≤ ls.length then
    match decodeItem (ls.take 14) with
    | none => none
    | some it =>
      match decodeItems (ls.drop 14) with
      | none => none
      | some rest => some (it :: rest)
  else none
termination_by ls.length
decreasing_by
  simp only [List.length_drop]
  omega

/-- Persist the collection: each record's 14 lines, all joined with
newlines. -/
def saveStore (items : List TodoItem) : List Char :=
  joinNl (items.flatMap encodeItem)

/-- Read the collection back from the file content. -/
def loadStore (file : List Char) : Option (List TodoItem) :=
  if file = [] then some [] else decodeItems (splitNl file)

/-- Modelled from the spec: the backing medium as seen by readers — the main
store file and the temporary file of the write-new-then-replace discipline
(§4.1, §5); `none` means the file does not exist. -/
structure StoreFile where
  main : Option (List Char)
  tmp : Option (List Char)
deriving DecidableEq

/-- Modelled from the spec: a save interrupted mid-write — only a prefix of
`k` characters of the new content has reached the temporary file, and the
atomic rename has not happened. -/
def crashedSave (fs : StoreFile) (content : List Char) (k : Nat) : StoreFile :=
  { main := fs.main, tmp := some (content.take k) }

/-- Modelled from the spec: a completed save — the fully written temporary
file has been atomically renamed over the main file. -/
def completedSave (_fs : StoreFile) (content : List Char) : StoreFile :=
  { main := some content, tmp := none }

/-- Modelled from the spec: `mark_done` followed by the durable `save`;
`saveOk = false` models the save failing after the mutation was computed in
memory, which §7 requires to surface as `PersistenceError`, never as
success. -/
def markDonePersist (items : List TodoItem) (tid : Nat) (notes : List Char)
    (now : Date) (saveOk : Bool) :
    Except TodoError (List TodoItem × Option TodoItem) :=
  match markDone items tid notes now with
  | .error e => .error e
  | .ok r => if saveOk then .ok r else .error .PersistenceError

/-- Modelled from the spec: the core operations a caller can invoke on the
manager (§6) — of these, `mark_done` is the sole mutating entry point. -/
inductive ManagerOp
  | resolveOp (token : List Char)
  | filterOp (d : Bool)
  | markDoneOp (tid : Nat) (notes : List Char) (now : Date)

/-- Apply a core operation to the collection, returning the new collection
and the successor instance, if any. -/
def applyOp (op : ManagerOp) (items : List TodoItem) :
    Except TodoError (List TodoItem × Option TodoItem) :=
  match op with
  | .resolveOp token =>
    match resolve items token with
    | .error e => .error e
    | .ok _ => .ok (items, none)
  | .filterOp _ => .ok (items, none)
  | .markDoneOp tid notes now => markDone items tid notes now

/-! ## Concrete sample data and proof-level predicates -/

/-- The output invariant of the deduplication loop: no line's `rstrip`-ped
form equals the previous one (seeded with `prev`). -/
def DedupedFrom : Option (List Char) → List (List Char) → Prop
  | _, [] => True
  | p, l :: ls => some (pyRstrip l) ≠ p ∧ DedupedFrom (some (pyRstrip l)) ls

/-- The sample recurring item of the spec's cadence invariant: due
2024-01-01, rule "every 7 days". -/
def sampleRecurring : TodoItem :=
  { id := 1, slug := ['t'], text := ['t'], displayText := ['t'], done := false,
    notes := [], recurrence := some ⟨.day, 7⟩, due := ⟨2024, 1, 1⟩,
    created := ⟨2023, 12, 1⟩ }

/-- The successor `sampleRecurring` spawns when completed at `now`. -/
def sampleSucc (now : Date) : TodoItem :=
  spawnSuccessor [sampleRecurring] sampleRecurring ⟨.day, 7⟩ now

/-- The two pending items of the spec's ambiguity example. -/
def fixBugItem : TodoItem :=
  { id := 1, slug := "fix-bug".data, text := "fix the bug".data,
    displayText := "fix the bug".data, done := false, notes := [],
    recurrence := none, due := ⟨2024, 1, 1⟩, created := ⟨2024, 1, 1⟩ }

/-- The second item, whose slug extends the first's. -/
def fixBug2Item : TodoItem :=
  { id := 2, slug := "fix-bug-2".data, text := "fix the bug 2".data,
    displayText := "fix the bug 2".data, done := false, notes := [],
    recurrence := none, due := ⟨2024, 1, 1⟩, created := ⟨2024, 1, 1⟩ }

/-- A pending sample item for the recommender witnesses. -/
def samplePending : TodoItem :=
  { id := 5, slug := ['a'], text := ['a'], displayText := ['a'], done := false,
    notes := [], recurrence := none, due := ⟨2024, 1, 1⟩, created := ⟨2024, 1, 1⟩ }

/-- A completed sample item, invisible to the recommender. -/
def sampleDone : TodoItem :=
  { id := 6, slug := ['b'], text := ['b'], displayText := ['b'], done := true,
    notes := [], recurrence := none, due := ⟨2024, 1, 1⟩, created := ⟨2024, 1, 1⟩ }

/-! ## Lemmas about the text utilities -/

theorem splitNl_ne_nil (cs : List Char) : splitNl cs ≠ [] := by
  cases cs with
  | nil => simp [splitNl]
  | cons c cs =>
    simp only [splitNl]
    split
    · simp
    · split <;> simp

theorem not_newline_mem_splitNl {cs l : List Char} (h : l ∈ splitNl cs) : '\n' ∉ l := by
  induction cs generalizing l with
  | nil =>
    simp only [splitNl, List.mem_singleton] at h
    subst h; simp
  | cons c cs ih =>
    simp only [splitNl] at h
    by_cases hc : c = '\n'
    · rw [if_pos hc] at h
      rcases List.mem_cons.mp h with h1 | h2
      · subst h1; simp
      · exact ih h2
    · rw [if_neg hc] at h
      rcases hsp : splitNl cs with _ | ⟨m, ms⟩
      · exact absurd hsp (splitNl_ne_nil cs)
      · rw [hsp] at h
        rcases List.mem_cons.mp h with h1 | h2
        · subst h1
          intro hmem
          rcases List.mem_cons.mp hmem with h3 | h4
          · exact hc h3.symm
          · exact ih (by rw [hsp]; exact List.mem_cons_self m ms) h4
        · exact ih (by rw [hsp]; exact List.mem_cons_of_mem m h2)

theorem mem_of_mem_splitNl {cs l : List Char} {c : Char}
    (hl : l ∈ splitNl cs) (hc : c ∈ l) : c ∈ cs := by
  induction cs generalizing l with
  | nil =>
    simp only [splitNl, List.mem_singleton] at hl
    subst hl; simp at hc
  | cons a cs ih =>
    simp only [splitNl] at hl
    by_cases ha : a = '\n'
    · rw [if_pos ha] at hl
      rcases List.mem_cons.mp hl with h1 | h2
      · subst h1; simp at hc
      · exact List.mem_cons_of_mem a (ih h2 hc)
    · rw [if_neg ha] at hl
      rcases hsp : splitNl cs with _ | ⟨m, ms⟩
      · exact absurd hsp (splitNl_ne_nil cs)
      · rw [hsp] at hl
        rcases List.mem_cons.mp hl with h1 | h2
        · subst h1
          rcases List.mem_cons.mp hc with h3 | h4
          · exact h3 ▸ List.mem_cons_self a cs
          · exact List.mem_cons_of_mem a
              (ih (by rw [hsp]; exact List.mem_cons_self m ms) h4)
        · exact List.mem_cons_of_mem a
            (ih (by rw [hsp]; exact List.mem_cons_of_mem m h2) hc)

theorem splitNl_no_newline {l : List Char} (h : '\n' ∉ l) : splitNl l = [l] := by
  induction l with
  | nil => rfl
  | cons c l ih =>
    have hc : c ≠ '\n' := fun e => h (e ▸ List.mem_cons_self c l)
    have hl : '\n' ∉ l := fun hm => h (List.mem_cons_of_mem c hm)
    simp only [splitNl, if_neg hc, ih hl]

theorem splitNl_append_newline {l : List Char} (rest : List Char) (h : '\n' ∉ l) :
    splitNl (l ++ '\n' :: rest) = l :: splitNl rest := by
  induction l with
  | nil => simp [splitNl]
  | cons c l ih =>
    have hc : c ≠ '\n' := fun e => h (e ▸ List.mem_cons_self c l)
    have hl : '\n' ∉ l := fun hm => h (List.mem_cons_of_mem c hm)
    simp only [List.cons_append, splitNl, if_neg hc, List.append_eq]
    rw [ih hl]

theorem splitNl_joinNl {L : List (List Char)} (hne : L ≠ [])
    (hno : ∀ l ∈ L, '\n' ∉ l) : splitNl (joinNl L) = L := by
  induction L with
  | nil => exact absurd rfl hne
  | cons l ls ih =>
    cases ls with
    | nil => exact splitNl_no_newline (hno l (List.mem_cons_self l []))
    | cons l2 ls2 =>
      show splitNl (l ++ '\n' :: joinNl (l2 :: ls2)) = _
      rw [splitNl_append_newline _ (hno l (List.mem_cons_self _ _))]
      rw [ih (List.cons_ne_nil l2 ls2) (fun m hm => hno m (List.mem_cons_of_mem l hm))]

theorem mem_joinNl {L : List (List Char)} {c : Char} (h : c ∈ joinNl L) :
    (∃ l ∈ L, c ∈ l) ∨ c = '\n' := by
  induction L with
  | nil => simp [joinNl] at h
  | cons l ls ih =>
    cases ls with
    | nil =>
      exact Or.inl ⟨l, List.mem_cons_self l [], h⟩
    | cons l2 ls2 =>
      rcases List.mem_append.mp h with h1 | h2
      · exact Or.inl ⟨l, List.mem_cons_self _ _, h1⟩
      · rcases List.mem_cons.mp h2 with h3 | h4
        · exact Or.inr h3
        · rcases ih h4 with ⟨m, hm, hcm⟩ | hnl
          · exact Or.inl ⟨m, List.mem_cons_of_mem l hm, hcm⟩
          · exact Or.inr hnl

/-! ## Lemmas for `clean_transcript` (claim C10) -/

theorem dedupeLines_sublist (p : Option (List Char)) (L : List (List Char)) :
    List.Sublist (dedupeLines p L) L := by
  induction L generalizing p with
  | nil => simp [dedupeLines]
  | cons l ls ih =>
    simp only [dedupeLines]
    split
    · exact (ih p).cons l
    · exact (ih _).cons₂ l

theorem dedupeLines_dedupedFrom (L : List (List Char)) (p : Option (List Char)) :
    DedupedFrom p (dedupeLines p L) := by
  induction L generalizing p with
  | nil => simp [dedupeLines, DedupedFrom]
  | cons l ls ih =>
    simp only [dedupeLines]
    split
    · exact ih p
    · exact ⟨by assumption, ih _⟩

theorem dedupeLines_eq_self {L : List (List Char)} {p : Option (List Char)}
    (h : DedupedFrom p L) : dedupeLines p L = L := by
  induction L generalizing p with
  | nil => rfl
  | cons l ls ih =>
    obtain ⟨h1, h2⟩ := h
    simp only [dedupeLines, if_neg h1]
    rw [ih h2]

theorem dedupeLines_none_ne_nil (l : List Char) (ls : List (List Char)) :
    dedupeLines none (l :: ls) ≠ [] := by
  simp only [dedupeLines]
  rw [if_neg (by simp)]
  simp

theorem ansiSubGo_eq_self {cs : List Char} (h : '\x1b' ∉ cs) :
    ∀ fuel, ansiSubGo fuel cs = cs := by
  intro fuel
  induction fuel generalizing cs with
  | zero => rfl
  | succ n ih =>
    cases cs with
    | nil => rfl
    | cons c cs' =>
      have hc : c ≠ '\x1b' := fun e => h (e ▸ List.mem_cons_self c cs')
      simp only [ansiSubGo, if_neg hc]
      rw [ih (fun hm => h (List.mem_cons_of_mem c hm))]

theorem ansiSub_eq_self {cs : List Char} (h : '\x1b' ∉ cs) : ansiSub cs = cs :=
  ansiSubGo_eq_self h _

theorem ctrlRemove_eq_self {cs : List Char} (h : ∀ c ∈ cs, isCtrl c = false) :
    ctrlRemove cs = cs := by
  unfold ctrlRemove
  apply List.filter_eq_self.mpr
  intro a ha
  simp [h a ha]

theorem isCtrl_eq_false_of_mem_ctrlRemove {cs : List Char} {c : Char}
    (h : c ∈ ctrlRemove cs) : isCtrl c = false := by
  unfold ctrlRemove at h
  have := List.of_mem_filter h
  simpa using this

theorem cleanContent_no_ctrl {s : List Char} {c : Char}
    (h : c ∈ cleanContent s) : isCtrl c = false := by
  unfold cleanContent at h
  rcases mem_joinNl h with ⟨l, hl, hcl⟩ | hnl
  · have hl' : l ∈ splitNl (ctrlRemove (ansiSub s)) :=
      (dedupeLines_sublist none _).mem hl
    exact isCtrl_eq_false_of_mem_ctrlRemove (mem_of_mem_splitNl hl' hcl)
  · subst hnl; decide

theorem cleanContent_idem (s : List Char) :
    cleanContent (cleanContent s) = cleanContent s := by
  have hno : ∀ c ∈ cleanContent s, isCtrl c = false :=
    fun c hc => cleanContent_no_ctrl hc
  have hesc : '\x1b' ∉ cleanContent s := by
    intro hm
    have h1 := hno _ hm
    have h2 : isCtrl '\x1b' = true := by decide
    rw [h2] at h1
    simp at h1
  show joinNl (dedupeLines none (splitNl (ctrlRemove (ansiSub (cleanContent s))))) = _
  rw [ansiSub_eq_self hesc, ctrlRemove_eq_self hno]
  have hL : splitNl (cleanContent s)
      = dedupeLines none (splitNl (ctrlRemove (ansiSub s))) := by
    show splitNl (joinNl _) = _
    apply splitNl_joinNl
    · rcases hsp : splitNl (ctrlRemove (ansiSub s)) with _ | ⟨m, ms⟩
      · exact absurd hsp (splitNl_ne_nil _)
      · exact dedupeLines_none_ne_nil m ms
    · intro l hl
      exact not_newline_mem_splitNl ((dedupeLines_sublist none _).mem hl)
  rw [hL, dedupeLines_eq_self (dedupeLines_dedupedFrom _ none)]
  rfl

/-- C10: `clean_transcript` is idempotent — applying the cleaning pipeline
(ANSI-escape removal, control-character removal, dropping each line whose
trailing-whitespace-stripped form equals its predecessor's) twice yields
the same file content as applying it once, and a missing transcript file is
left untouched (nothing is written). -/
theorem claim10_clean_transcript_idempotent :
    clean_transcript none = none ∧
    ∀ c, clean_transcript (clean_transcript (some c)) = clean_transcript (some c) := by
  refine ⟨rfl, fun c => ?_⟩
  simp only [clean_transcript]
  rw [cleanContent_idem]

/-! ## Claim C9: relevance checking -/

/-- C9 counterexample: for the chat reply `"YES"` (no think tags),
`check_relevance_ai` returns `True`, yet the reply after stripping
`<think>` tags does not contain the substring `"yes"` — the claim misses
the `.strip().lower()` normalisation the code applies before the substring
tests. -/
theorem claim9_counterexample :
    check_relevance_ai ⟨some ['k'], some ['Y', 'E', 'S']⟩ = some true ∧
    containsSub ['y', 'e', 's'] (stripThink ['Y', 'E', 'S']) = false := by
  decide

/-- C9 (amended): `check_relevance_ai` returns `None` (never raises) whenever
the `OPENROUTER_API_KEY` config entry is missing or the remote chat call
raises; it returns `True` only when the reply, after stripping `<think>`
tags, trimming whitespace and lowercasing, contains the substring `"yes"`
and does not contain the substring `"no"`; and `load_relevant_resources`
treats a `None` result exactly like `False`, excluding the resource. -/
theorem claim9_relevance_fallback :
    (∀ env : RelevanceEnv, env.apiKey = none → check_relevance_ai env = none) ∧
    (∀ env : RelevanceEnv, env.chatReply = none → check_relevance_ai env = none) ∧
    (∀ (env : RelevanceEnv) (reply : List Char), env.chatReply = some reply →
      check_relevance_ai env = some true →
      containsSub ['y', 'e', 's'] (processAnswer reply) = true ∧
      containsSub ['n', 'o'] (processAnswer reply) = false) ∧
    (∀ (content : List Char) (rest : List (List Char × Option Bool)),
      load_relevant_resources ((content, none) :: rest)
        = load_relevant_resources ((content, some false) :: rest)) := by
  refine ⟨?_, ?_, ?_, ?_⟩
  · intro env h
    unfold check_relevance_ai
    rw [h]
  · intro env h
    obtain ⟨ak, cr⟩ := env
    replace h : cr = none := h
    subst h
    cases ak with
    | none => rfl
    | some k =>
      by_cases hk : k = []
      · simp [check_relevance_ai, hk]
      · simp [check_relevance_ai, hk]
  · intro env reply hrep h
    obtain ⟨ak, cr⟩ := env
    replace hrep : cr = some reply := hrep
    subst hrep
    cases ak with
    | none => simp [check_relevance_ai] at h
    | some k =>
      by_cases hk : k = []
      · simp [check_relevance_ai, hk] at h
      · simp only [check_relevance_ai, if_neg hk] at h
        have hb := Option.some.inj h
        rw [Bool.and_eq_true] at hb
        exact ⟨hb.1, by simpa using hb.2⟩
  · intro content rest
    simp [load_relevant_resources, relevanceTruthy, List.filter_cons]

/-- Witness for C9: the three fallback behaviours and the substring condition
at concrete inputs. -/
theorem claim9_witness :
    check_relevance_ai ⟨none, some ['y', 'e', 's']⟩ = none ∧
    check_relevance_ai ⟨some ['k'], none⟩ = none ∧
    (containsSub ['y', 'e', 's'] (processAnswer ['y', 'e', 's']) = true ∧
     containsSub ['n', 'o'] (processAnswer ['y', 'e', 's']) = false) ∧
    load_relevant_resources [(['r'], none)] = load_relevant_resources [(['r'], some false)] :=
  ⟨claim9_relevance_fallback.1 ⟨none, some ['y', 'e', 's']⟩ rfl,
   claim9_relevance_fallback.2.1 ⟨some ['k'], none⟩ rfl,
   claim9_relevance_fallback.2.2.1 ⟨some ['k'], some ['y', 'e', 's']⟩
     ['y', 'e', 's'] rfl (by decide),
   claim9_relevance_fallback.2.2.2 ['r'] []⟩

/-! ## Lemmas about the manager operations -/

theorem find?_markedList {items : List TodoItem} {tid : Nat} {it : TodoItem} (notes : List Char)
    (h : items.find? (fun j => j.id == tid) = some it) :
    (markedList items tid notes).find? (fun j => j.id == tid) = some (setDone it notes) := by
  unfold markedList
  rw [List.find?_map]
  have hpf : ((fun j : TodoItem => j.id == tid) ∘
        fun j => if j.id == tid then setDone j notes else j)
      = fun j : TodoItem => j.id == tid := by
    funext j
    by_cases hj : j.id = tid
    · simp [Function.comp, hj, setDone]
    · simp [Function.comp, hj]
  rw [hpf, h]
  have hit : it.id = tid := by simpa using List.find?_some h
  simp [hit]

theorem id_le_foldr_max {items : List TodoItem} {j : TodoItem} (h : j ∈ items) :
    j.id ≤ (items.map (fun k => k.id)).foldr max 0 := by
  induction items with
  | nil => simp at h
  | cons a l ih =>
    rcases List.mem_cons.mp h with h1 | h2
    · subst h1
      exact le_max_left _ _
    · exact le_trans (ih h2) (le_max_right _ _)

theorem id_lt_freshId {items : List TodoItem} {j : TodoItem} (h : j ∈ items) :
    j.id < freshId items := by
  unfold freshId
  have := id_le_foldr_max h
  omega

theorem markedList_preserves_done (tid : Nat) (notes : List Char) {items : List TodoItem}
    {j : TodoItem} (hj : j ∈ items) (hd : j.done = true) :
    ∃ j2 ∈ markedList items tid notes, j2.id = j.id ∧ j2.done = true := by
  refine ⟨if j.id == tid then setDone j notes else j, List.mem_map_of_mem _ hj, ?_, ?_⟩
  · split <;> simp [setDone]
  · split <;> simp [setDone, hd]

theorem markDone_spawn_eq {items : List TodoItem} {tid : Nat} {notes : List Char}
    {now : Date} {it : TodoItem} {r : Rule}
    (hfind : items.find? (fun j => j.id == tid) = some it)
    (hdone : it.done = false) (hrec : it.recurrence = some r) :
    markDone items tid notes now
      = .ok (markedList items tid notes ++ [spawnSuccessor items it r now],
             some (spawnSuccessor items it r now)) := by
  unfold markDone
  rw [hfind]
  simp [hdone, hrec]

theorem markDone_no_rec_eq {items : List TodoItem} {tid : Nat} {notes : List Char}
    {now : Date} {it : TodoItem}
    (hfind : items.find? (fun j => j.id == tid) = some it)
    (hdone : it.done = false) (hrec : it.recurrence = none) :
    markDone items tid notes now = .ok (markedList items tid notes, none) := by
  unfold markDone
  rw [hfind]
  simp [hdone, hrec]

theorem markDone_on_marked {items : List TodoItem} {tid : Nat} {notes : List Char}
    {it : TodoItem} (notes2 : List Char) (now2 : Date)
    (hfind : items.find? (fun j => j.id == tid) = some it) :
    markDone (markedList items tid notes) tid notes2 now2 = .error .AlreadyDone := by
  unfold markDone
  rw [find?_markedList notes hfind]
  simp [setDone]

theorem markDone_on_marked_append {items : List TodoItem} {tid : Nat} {notes : List Char}
    {it : TodoItem} (tail : List TodoItem) (notes2 : List Char) (now2 : Date)
    (hfind : items.find? (fun j => j.id == tid) = some it) :
    markDone (markedList items tid notes ++ tail) tid notes2 now2 = .error .AlreadyDone := by
  unfold markDone
  rw [List.find?_append, find?_markedList notes hfind]
  simp [setDone]

/-! ## Claim C1: recurrence cadence -/

/-- C1: for a recurring item, `mark_done` called at any wall-clock time `now`
produces a successor whose due date is the stored due date advanced by the
rule — never a function of `now`; in particular the item with due 2024-01-01
and rule "every 7 days" always yields a successor due 2024-01-08, which
differs from `now + 7 days` for a later `now` such as 2024-03-15. -/
theorem claim1_recurrence_cadence :
    (∀ (items : List TodoItem) (tid : Nat) (notes : List Char) (now : Date)
        (it : TodoItem) (r : Rule),
      items.find? (fun j => j.id == tid) = some it →
      it.done = false → it.recurrence = some r →
      markDone items tid notes now
        = .ok (markedList items tid notes ++ [spawnSuccessor items it r now],
               some (spawnSuccessor items it r now)) ∧
      (spawnSuccessor items it r now).due = advanceRule r it.due) ∧
    (∀ now : Date, ∃ succ : TodoItem,
      markDone [sampleRecurring] 1 [] now
        = .ok ([setDone sampleRecurring [], succ], some succ) ∧
      succ.due = ⟨2024, 1, 8⟩) ∧
    addDays ⟨2024, 3, 15⟩ 7 ≠ (⟨2024, 1, 8⟩ : Date) := by
  refine ⟨?_, ?_, by decide⟩
  · intro items tid notes now it r hfind hdone hrec
    exact ⟨markDone_spawn_eq hfind hdone hrec, rfl⟩
  · intro now
    exact ⟨sampleSucc now, rfl, rfl⟩

/-- Witness for C1 at the sample store, completed on 2024-03-15. -/
theorem claim1_witness :
    markDone [sampleRecurring] 1 [] ⟨2024, 3, 15⟩
      = .ok (markedList [sampleRecurring] 1 [] ++ [sampleSucc ⟨2024, 3, 15⟩],
             some (sampleSucc ⟨2024, 3, 15⟩)) ∧
    (sampleSucc ⟨2024, 3, 15⟩).due = advanceRule ⟨.day, 7⟩ sampleRecurring.due :=
  claim1_recurrence_cadence.1 [sampleRecurring] 1 [] ⟨2024, 3, 15⟩ sampleRecurring
    ⟨.day, 7⟩ (by decide) rfl rfl

/-! ## Claim C3: idempotent completion -/

/-- C3: re-marking an id whose `mark_done` already succeeded consistently
fails with `AlreadyDone` — returning an error, the second call produces no
new collection and hence no second successor instance. -/
theorem claim3_idempotent_completion :
    ∀ (items : List TodoItem) (tid : Nat) (notes notes2 : List Char)
      (now now2 : Date) (items2 : List TodoItem) (s : Option TodoItem),
      markDone items tid notes now = .ok (items2, s) →
      markDone items2 tid notes2 now2 = .error .AlreadyDone := by
  intro items tid notes notes2 now now2 items2 s h
  rcases hfind : items.find? (fun j => j.id == tid) with _ | it
  · rw [markDone, hfind] at h
    exact absurd h (by simp)
  · by_cases hd : it.done = true
    · rw [markDone, hfind] at h
      simp [hd] at h
    · rcases hr : it.recurrence with _ | r
      · rw [markDone_no_rec_eq hfind (Bool.eq_false_iff.mpr hd) hr] at h
        injection h with hpair
        injection hpair with hi hs
        subst hi
        exact markDone_on_marked notes2 now2 hfind
      · rw [markDone_spawn_eq hfind (Bool.eq_false_iff.mpr hd) hr] at h
        injection h with hpair
        injection hpair with hi hs
        subst hi
        exact markDone_on_marked_append _ notes2 now2 hfind

/-- Witness for C3: completing the sample item and re-completing its id. -/
theorem claim3_witness :
    markDone (markedList [sampleRecurring] 1 [] ++ [sampleSucc ⟨2024, 2, 2⟩])
        1 ['n'] ⟨2024, 2, 3⟩ = .error .AlreadyDone :=
  claim3_idempotent_completion [sampleRecurring] 1 [] ['n'] ⟨2024, 2, 2⟩ ⟨2024, 2, 3⟩
    (markedList [sampleRecurring] 1 [] ++ [sampleSucc ⟨2024, 2, 2⟩])
    (some (sampleSucc ⟨2024, 2, 2⟩)) rfl

/-! ## Claim C4: exactly one successor, never reopened, sole entry point -/

/-- C4: completing a recurring item appends exactly one successor — fresh id,
freshly computed due date, `done = false`; no core operation ever resets a
done item's flag; and `mark_done` is the only operation that can enlarge the
collection. -/
theorem claim4_single_successor :
    (∀ (items : List TodoItem) (tid : Nat) (notes : List Char) (now : Date)
        (it : TodoItem) (r : Rule),
      items.find? (fun j => j.id == tid) = some it →
      it.done = false → it.recurrence = some r →
      markDone items tid notes now
        = .ok (markedList items tid notes ++ [spawnSuccessor items it r now],
               some (spawnSuccessor items it r now)) ∧
      (spawnSuccessor items it r now).done = false ∧
      (spawnSuccessor items it r now).due = advanceRule r it.due ∧
      (markedList items tid notes ++ [spawnSuccessor items it r now]).length
        = items.length + 1 ∧
      ∀ j ∈ items, (spawnSuccessor items it r now).id ≠ j.id) ∧
    (∀ (op : ManagerOp) (items items2 : List TodoItem) (s : Option TodoItem),
      applyOp op items = .ok (items2, s) →
      ∀ j ∈ items, j.done = true → ∃ j2 ∈ items2, j2.id = j.id ∧ j2.done = true) ∧
    (∀ (op : ManagerOp) (items items2 : List TodoItem) (s : Option TodoItem),
      applyOp op items = .ok (items2, s) →
      items.length < items2.length →
      ∃ tid notes now, op = ManagerOp.markDoneOp tid notes now) := by
  refine ⟨?_, ?_, ?_⟩
  · intro items tid notes now it r hfind hdone hrec
    refine ⟨markDone_spawn_eq hfind hdone hrec, rfl, rfl, ?_, ?_⟩
    · simp [markedList]
    · intro j hj
      exact Nat.ne_of_gt (id_lt_freshId hj)
  · intro op items items2 s h j hj hdj
    cases op with
    | resolveOp token =>
      rw [applyOp] at h
      rcases hres : resolve items token with e | x
      · rw [hres] at h; exact absurd h (by simp)
      · rw [hres] at h
        injection h with hpair
        injection hpair with hi hs
        subst hi
        exact ⟨j, hj, rfl, hdj⟩
    | filterOp d =>
      rw [applyOp] at h
      injection h with hpair
      injection hpair with hi hs
      subst hi
      exact ⟨j, hj, rfl, hdj⟩
    | markDoneOp tid notes now =>
      rw [applyOp] at h
      rcases hfind : items.find? (fun k => k.id == tid) with _ | it
      · rw [markDone, hfind] at h; exact absurd h (by simp)
      · by_cases hdit : it.done = true
        · rw [markDone, hfind] at h
          simp [hdit] at h
        · rcases hr : it.recurrence with _ | r
          · rw [markDone_no_rec_eq hfind (Bool.eq_false_iff.mpr hdit) hr] at h
            injection h with hpair
            injection hpair with hi hs
            subst hi
            exact markedList_preserves_done tid notes hj hdj
          · rw [markDone_spawn_eq hfind (Bool.eq_false_iff.mpr hdit) hr] at h
            injection h with hpair
            injection hpair with hi hs
            subst hi
            obtain ⟨j2, hj2, hid, hdone2⟩ := markedList_preserves_done tid notes hj hdj
            exact ⟨j2, List.mem_append_left _ hj2, hid, hdone2⟩
  · intro op items items2 s h hlen
    cases op with
    | resolveOp token =>
      rw [applyOp] at h
      rcases hres : resolve items token with e | x
      · rw [hres] at h; exact absurd h (by simp)
      · rw [hres] at h
        injection h with hpair
        injection hpair with hi hs
        subst hi
        exact absurd hlen (lt_irrefl _)
    | filterOp d =>
      rw [applyOp] at h
      injection h with hpair
      injection hpair with hi hs
      subst hi
      exact absurd hlen (lt_irrefl _)
    | markDoneOp tid notes now =>
      exact ⟨tid, notes, now, rfl⟩

/-- Witness for C4: the three parts at the sample store. -/
theorem claim4_witness :
    (markDone [sampleRecurring] 1 [] ⟨2024, 2, 2⟩
        = .ok (markedList [sampleRecurring] 1 [] ++ [sampleSucc ⟨2024, 2, 2⟩],
               some (sampleSucc ⟨2024, 2, 2⟩)) ∧
      (sampleSucc ⟨2024, 2, 2⟩).done = false ∧
      (sampleSucc ⟨2024, 2, 2⟩).due = advanceRule ⟨.day, 7⟩ sampleRecurring.due ∧
      (markedList [sampleRecurring] 1 [] ++ [sampleSucc ⟨2024, 2, 2⟩]).length
        = [sampleRecurring].length + 1 ∧
      ∀ j ∈ [sampleRecurring], (sampleSucc ⟨2024, 2, 2⟩).id ≠ j.id) ∧
    (∃ j2 ∈ [setDone sampleRecurring []],
      j2.id = (setDone sampleRecurring []).id ∧ j2.done = true) ∧
    (∃ tid notes now,
      ManagerOp.markDoneOp 1 ([] : List Char) ⟨2024, 2, 2⟩
        = ManagerOp.markDoneOp tid notes now) :=
  ⟨claim4_single_successor.1 [sampleRecurring] 1 [] ⟨2024, 2, 2⟩ sampleRecurring
     ⟨.day, 7⟩ (by decide) rfl rfl,
   claim4_single_successor.2.1 (ManagerOp.filterOp true) [setDone sampleRecurring []]
     [setDone sampleRecurring []] none rfl (setDone sampleRecurring [])
     (List.mem_cons_self _ _) rfl,
   claim4_single_successor.2.2 (ManagerOp.markDoneOp 1 [] ⟨2024, 2, 2⟩)
     [sampleRecurring] (markedList [sampleRecurring] 1 [] ++ [sampleSucc ⟨2024, 2, 2⟩])
     (some (sampleSucc ⟨2024, 2, 2⟩)) rfl (by decide)⟩

/-! ## Claim C2: resolution -/

/-- C2: `resolve` returns the unique exact slug match outright regardless of
prefix sharing; with no exact match it returns a unique pending prefix match,
fails with `AmbiguousMatch` listing the candidates when several pending slugs
start with the token, and fails with `NotFound` when none does — never a
silent arbitrary pick. -/
theorem claim2_resolution :
    ∀ (items : List TodoItem) (token : List Char),
      (∀ it, it ∈ items → it.slug = token →
        (∀ j ∈ items, j.slug = token → j = it) →
        resolve items token = .ok it) ∧
      ((∀ j ∈ items, j.slug ≠ token) →
        (prefixCands items token = [] → resolve items token = .error .NotFound) ∧
        (∀ it, prefixCands items token = [it] → resolve items token = .ok it) ∧
        (2 ≤ (prefixCands items token).length →
          resolve items token = .error (.AmbiguousMatch (prefixCands items token)))) := by
  intro items token
  constructor
  · intro it hmem hslug huniq
    rcases hf : items.find? (fun j => j.slug == token) with _ | x
    · rw [List.find?_eq_none] at hf
      exact absurd (by simp [hslug]) (hf it hmem)
    · have hx1 : x.slug = token := by simpa using List.find?_some hf
      have hx2 : x ∈ items := List.mem_of_find?_eq_some hf
      have hxit : x = it := huniq x hx2 hx1
      subst hxit
      rw [resolve, hf]
  · intro hno
    have hf : items.find? (fun j => j.slug == token) = none :=
      List.find?_eq_none.mpr (fun x hx => by simp [hno x hx])
    refine ⟨?_, ?_, ?_⟩
    · intro hemp
      rw [resolve, hf, hemp]
    · intro it hone
      rw [resolve, hf, hone]
    · intro hlen
      rcases hpc : prefixCands items token with _ | ⟨a, t⟩
      · rw [hpc] at hlen; simp at hlen
      · rcases t with _ | ⟨b, t2⟩
        · rw [hpc] at hlen; simp at hlen
        · rw [resolve, hf, hpc]

/-- Witness for C2: the spec's example — `"fix-bug"` resolves to the exact
match, `"fix"` is ambiguous between both. -/
theorem claim2_witness :
    resolve [fixBugItem, fixBug2Item] "fix-bug".data = .ok fixBugItem ∧
    resolve [fixBugItem, fixBug2Item] "fix".data
      = .error (.AmbiguousMatch [fixBugItem, fixBug2Item]) := by
  constructor
  · exact (claim2_resolution [fixBugItem, fixBug2Item] "fix-bug".data).1 fixBugItem
      (by decide) (by decide) (by decide)
  · have h := ((claim2_resolution [fixBugItem, fixBug2Item] "fix".data).2
      (by decide)).2.2 (by decide)
    rw [show prefixCands [fixBugItem, fixBug2Item] "fix".data
        = [fixBugItem, fixBug2Item] from by decide] at h
    exact h

/-! ## Lemmas about the recommender -/

theorem mem_insertScored {x y : ScoredTask} {l : List ScoredTask}
    (h : y ∈ insertScored x l) : y = x ∨ y ∈ l := by
  induction l with
  | nil =>
    simp only [insertScored, List.mem_singleton] at h
    exact Or.inl h
  | cons z zs ih =>
    simp only [insertScored] at h
    split at h
    · rcases List.mem_cons.mp h with h1 | h2
      · exact Or.inl h1
      · exact Or.inr h2
    · rcases List.mem_cons.mp h with h1 | h2
      · exact Or.inr (h1 ▸ List.mem_cons_self z zs)
      · rcases ih h2 with h3 | h4
        · exact Or.inl h3
        · exact Or.inr (List.mem_cons_of_mem z h4)

theorem mem_sortScored {y : ScoredTask} {l : List ScoredTask}
    (h : y ∈ sortScored l) : y ∈ l := by
  induction l with
  | nil => simp [sortScored] at h
  | cons x xs ih =>
    rcases mem_insertScored (l := sortScored xs) h with h1 | h2
    · exact h1 ▸ List.mem_cons_self x xs
    · exact List.mem_cons_of_mem x (ih h2)

theorem length_insertScored (x : ScoredTask) (l : List ScoredTask) :
    (insertScored x l).length = l.length + 1 := by
  induction l with
  | nil => rfl
  | cons z zs ih =>
    simp only [insertScored]
    split
    · simp
    · simp [ih]

theorem length_sortScored (l : List ScoredTask) :
    (sortScored l).length = l.length := by
  induction l with
  | nil => rfl
  | cons x xs ih =>
    show (insertScored x (sortScored xs)).length = xs.length + 1
    rw [length_insertScored, ih]

theorem sorted_insertScored {x : ScoredTask} {l : List ScoredTask}
    (h : List.Chain' (fun a b : ScoredTask => b.score ≤ a.score) l) :
    List.Chain' (fun a b : ScoredTask => b.score ≤ a.score) (insertScored x l) := by
  induction l with
  | nil => simp [insertScored]
  | cons z zs ih =>
    simp only [insertScored]
    split
    · exact List.chain'_cons.mpr ⟨by omega, h⟩
    · have hzx : x.score ≤ z.score := by omega
      have htail := (List.chain'_cons'.mp h).2
      have hhead := (List.chain'_cons'.mp h).1
      refine List.chain'_cons'.mpr ⟨?_, ih htail⟩
      intro w hw
      cases zs with
      | nil =>
        simp [insertScored] at hw
        subst hw
        exact hzx
      | cons u us =>
        simp only [insertScored] at hw
        split at hw
        · simp only [List.head?_cons, Option.mem_def, Option.some.injEq] at hw
          subst hw
          exact hzx
        · simp only [List.head?_cons, Option.mem_def, Option.some.injEq] at hw
          subst hw
          exact hhead u rfl

theorem sorted_sortScored (l : List ScoredTask) :
    List.Chain' (fun a b : ScoredTask => b.score ≤ a.score) (sortScored l) := by
  induction l with
  | nil => simp [sortScored]
  | cons x xs ih => exact sorted_insertScored ih

theorem filter_insertScored (x : ScoredTask) (l : List ScoredTask) (s : Nat) :
    (insertScored x l).filter (fun t => t.score == s)
      = if x.score = s then x :: l.filter (fun t => t.score == s)
        else l.filter (fun t => t.score == s) := by
  induction l with
  | nil =>
    by_cases hx : x.score = s
    · simp [insertScored, List.filter_cons, hx]
    · simp [insertScored, List.filter_cons, hx]
  | cons z zs ih =>
    simp only [insertScored]
    split
    · by_cases hx : x.score = s
      · simp [List.filter_cons, hx]
      · simp [List.filter_cons, hx]
    · have hzx : x.score < z.score := by omega
      by_cases hx : x.score = s
      · have hz : ¬ z.score = s := by omega
        simp [List.filter_cons, hz, ih, hx]
      · by_cases hz : z.score = s
        · simp [List.filter_cons, hz, ih, hx]
        · simp [List.filter_cons, hz, ih, hx]

theorem filter_sortScored (l : List ScoredTask) (s : Nat) :
    (sortScored l).filter (fun t => t.score == s)
      = l.filter (fun t => t.score == s) := by
  induction l with
  | nil => rfl
  | cons x xs ih =>
    show (insertScored x (sortScored xs)).filter _ = _
    rw [filter_insertScored]
    by_cases hx : x.score = s
    · simp [List.filter_cons, hx, ih]
    · simp [List.filter_cons, hx, ih]

/-! ## Claim C5: recommendation determinism and auditability -/

/-- C5: `get_recommendations` is a pure function of the pending snapshot,
`now` and `count` — collections with the same pending items yield identical
ordered results — and every returned score and reason is computed from the
same inputs (the item and `now`). -/
theorem claim5_determinism :
    ∀ (items1 items2 : List TodoItem) (now : Date) (count : Nat),
      pendingOf items1 = pendingOf items2 →
      get_recommendations items1 now count = get_recommendations items2 now count ∧
      ∀ st ∈ get_recommendations items1 now count,
        st.score = scoreItem now st.item ∧ st.reason = reasonFor now st.item := by
  intro items1 items2 now count h
  constructor
  · unfold get_recommendations scoredPending
    rw [h]
  · intro st hst
    have h1 : st ∈ sortScored (scoredPending items1 now) := List.mem_of_mem_take hst
    have h2 : st ∈ scoredPending items1 now := mem_sortScored h1
    unfold scoredPending at h2
    obtain ⟨it, hmem, heq⟩ := List.mem_map.mp h2
    rw [← heq]
    exact ⟨rfl, rfl⟩

/-- Witness for C5: adding a completed item to the collection leaves the
recommendations unchanged, and the returned entry is audited by its item. -/
theorem claim5_witness :
    get_recommendations [samplePending, sampleDone] ⟨2024, 1, 2⟩ 3
      = get_recommendations [samplePending] ⟨2024, 1, 2⟩ 3 ∧
    ∀ st ∈ get_recommendations [samplePending, sampleDone] ⟨2024, 1, 2⟩ 3,
      st.score = scoreItem ⟨2024, 1, 2⟩ st.item ∧
      st.reason = reasonFor ⟨2024, 1, 2⟩ st.item :=
  claim5_determinism [samplePending, sampleDone] [samplePending] ⟨2024, 1, 2⟩ 3
    (by decide)

/-! ## Claim C6: recommendation bound, order and stability -/

/-- C6: `get_recommendations` returns exactly `min count #pending` tasks (an
empty list over an empty pending set, never an error), in descending score
order, and the underlying sort keeps equal-score tasks in stable input
order (filtering any fixed score out of the sorted list equals filtering it
out of the input). -/
theorem claim6_bound :
    ∀ (items : List TodoItem) (now : Date) (count : Nat),
      (get_recommendations items now count).length
        = min count (pendingOf items).length ∧
      List.Chain' (fun a b : ScoredTask => b.score ≤ a.score)
        (get_recommendations items now count) ∧
      ∀ s, (sortScored (scoredPending items now)).filter (fun t => t.score == s)
          = (scoredPending items now).filter (fun t => t.score == s) := by
  intro items now count
  refine ⟨?_, ?_, fun s => filter_sortScored _ s⟩
  · unfold get_recommendations
    rw [List.length_take, length_sortScored]
    unfold scoredPending
    rw [List.length_map]
  · exact (sorted_sortScored _).take count

/-! ## Lemmas about the store encoding (claim C7) -/

theorem escapeField_bs (cs : List Char) :
    escapeField ('\\' :: cs) = '\\' :: '\\' :: escapeField cs := by
  simp [escapeField]

theorem escapeField_nl (cs : List Char) :
    escapeField ('\n' :: cs) = '\\' :: 'n' :: escapeField cs := by
  simp [escapeField]

theorem escapeField_cons {c : Char} (cs : List Char) (h1 : c ≠ '\\') (h2 : c ≠ '\n') :
    escapeField (c :: cs) = c :: escapeField cs := by
  simp [escapeField, h1, h2]

theorem unescapeField_bs_bs (rest : List Char) :
    unescapeField ('\\' :: '\\' :: rest) = '\\' :: unescapeField rest := by
  rw [unescapeField.eq_def]
  simp

theorem unescapeField_bs_n (rest : List Char) :
    unescapeField ('\\' :: 'n' :: rest) = '\n' :: unescapeField rest := by
  rw [unescapeField.eq_def]
  simp

theorem unescapeField_cons {c : Char} (rest : List Char) (h : c ≠ '\\') :
    unescapeField (c :: rest) = c :: unescapeField rest := by
  rw [unescapeField.eq_def]
  simp only
  rw [if_neg h]

theorem unescape_escape (l : List Char) : unescapeField (escapeField l) = l := by
  induction l with
  | nil => rfl
  | cons c cs ih =>
    by_cases hb : c = '\\'
    · subst hb
      rw [escapeField_bs, unescapeField_bs_bs, ih]
    · by_cases hn : c = '\n'
      · subst hn
        rw [escapeField_nl, unescapeField_bs_n, ih]
      · rw [escapeField_cons cs hb hn, unescapeField_cons _ hb, ih]

theorem escape_no_newline (l : List Char) : '\n' ∉ escapeField l := by
  induction l with
  | nil => simp [escapeField]
  | cons c cs ih =>
    by_cases hb : c = '\\'
    · subst hb
      simp only [escapeField, if_pos rfl]
      intro h
      rcases List.mem_cons.mp h with h1 | h2
      · exact absurd h1 (by decide)
      · rcases List.mem_cons.mp h2 with h3 | h4
        · exact absurd h3 (by decide)
        · exact ih h4
    · by_cases hn : c = '\n'
      · subst hn
        simp only [escapeField, if_neg (by decide : ¬ ('\n' : Char) = '\\'), if_pos rfl]
        intro h
        rcases List.mem_cons.mp h with h1 | h2
        · exact absurd h1 (by decide)
        · rcases List.mem_cons.mp h2 with h3 | h4
          · exact absurd h3 (by decide)
          · exact ih h4
      · simp only [escapeField, if_neg hb, if_neg hn]
        intro h
        rcases List.mem_cons.mp h with h1 | h2
        · exact hn h1.symm
        · exact ih h2

theorem natToChars_no_newline (n : Nat) : '\n' ∉ natToChars n := by
  intro h
  unfold natToChars at h
  rw [List.mem_reverse] at h
  obtain ⟨d, hd, hc⟩ := List.mem_map.mp h
  have hlt : d < 10 := Nat.digits_lt_base (by norm_num) hd
  have : ∀ d : Nat, d < 10 → Char.ofNat (48 + d) ≠ '\n' := by decide
  exact this d hlt hc

theorem charsToNat_natToChars (n : Nat) : charsToNat (natToChars n) = n := by
  unfold charsToNat natToChars
  rw [List.reverse_reverse, List.map_map]
  have hmap : ∀ l : List Nat, (∀ d ∈ l, d < 10) →
      l.map ((fun c : Char => c.toNat - 48) ∘ fun d => Char.ofNat (48 + d)) = l := by
    intro l hl
    induction l with
    | nil => rfl
    | cons d ds ih =>
      have hd : d < 10 := hl d (List.mem_cons_self d ds)
      have hfd : ∀ d : Nat, d < 10 →
          ((fun c : Char => c.toNat - 48) ∘ fun d => Char.ofNat (48 + d)) d = d := by decide
      rw [List.map_cons, hfd d hd, ih (fun x hx => hl x (List.mem_cons_of_mem d hx))]
  rw [hmap _ (fun d hd => Nat.digits_lt_base (by norm_num) hd), Nat.ofDigits_digits]

theorem encodeRec_length (r : Option Rule) : (encodeRec r).length = 2 := by
  cases r <;> rfl

theorem encodeItem_length (it : TodoItem) : (encodeItem it).length = 14 := by
  unfold encodeItem
  rw [List.length_append, List.length_append, encodeRec_length]
  rfl

theorem encodeRec_no_newline {r : Option Rule} {l : List Char}
    (h : l ∈ encodeRec r) : '\n' ∉ l := by
  rcases r with _ | ⟨u, n⟩
  · rcases List.mem_cons.mp h with h1 | h2
    · subst h1; decide
    · rcases List.mem_cons.mp h2 with h3 | h4
      · subst h3; exact natToChars_no_newline 0
      · simp at h4
  · rcases List.mem_cons.mp h with h1 | h2
    · subst h1
      cases u <;> decide
    · rcases List.mem_cons.mp h2 with h3 | h4
      · subst h3; exact natToChars_no_newline n
      · simp at h4

theorem encodeItem_no_newline {it : TodoItem} {l : List Char}
    (h : l ∈ encodeItem it) : '\n' ∉ l := by
  unfold encodeItem at h
  rw [List.append_assoc, List.mem_append] at h
  rcases h with h | h
  · rcases List.mem_cons.mp h with h1 | h
    · subst h1; exact natToChars_no_newline _
    rcases List.mem_cons.mp h with h1 | h
    · subst h1; exact escape_no_newline _
    rcases List.mem_cons.mp h with h1 | h
    · subst h1; exact escape_no_newline _
    rcases List.mem_cons.mp h with h1 | h
    · subst h1; exact escape_no_newline _
    rcases List.mem_cons.mp h with h1 | h
    · subst h1; split <;> decide
    rcases List.mem_cons.mp h with h1 | h
    · subst h1; exact escape_no_newline _
    simp at h
  · rw [List.mem_append] at h
    rcases h with h | h
    · exact encodeRec_no_newline h
    · rcases List.mem_cons.mp h with h1 | h
      · subst h1; exact natToChars_no_newline _
      rcases List.mem_cons.mp h with h1 | h
      · subst h1; exact natToChars_no_newline _
      rcases List.mem_cons.mp h with h1 | h
      · subst h1; exact natToChars_no_newline _
      rcases List.mem_cons.mp h with h1 | h
      · subst h1; exact natToChars_no_newline _
      rcases List.mem_cons.mp h with h1 | h
      · subst h1; exact natToChars_no_newline _
      rcases List.mem_cons.mp h with h1 | h
      · subst h1; exact natToChars_no_newline _
      simp at h

theorem decodeItem_encodeItem (it : TodoItem) : decodeItem (encodeItem it) = some it := by
  obtain ⟨tid, slug, text, disp, dn, notes, rec', due, created⟩ := it
  obtain ⟨dy, dm, dd⟩ := due
  obtain ⟨cy, cm, cd⟩ := created
  rcases rec' with _ | ⟨u, n⟩
  · cases dn <;>
      simp [encodeItem, encodeRec, decodeItem, decodeRec, charsToNat_natToChars,
        unescape_escape]
  · cases u <;> cases dn <;>
      simp [encodeItem, encodeRec, decodeItem, decodeRec, unitTag,
        charsToNat_natToChars, unescape_escape]

theorem decodeItems_encode (items : List TodoItem) :
    decodeItems (items.flatMap encodeItem) = some items := by
  induction items with
  | nil => simp [decodeItems]
  | cons it rest ih =>
    have hflat : (it :: rest).flatMap encodeItem
        = encodeItem it ++ rest.flatMap encodeItem := by
      simp [List.flatMap_cons]
    rw [hflat]
    have hlen : (encodeItem it ++ rest.flatMap encodeItem).length
        = 14 + (rest.flatMap encodeItem).length := by
      rw [List.length_append, encodeItem_length]
    have hne : encodeItem it ++ rest.flatMap encodeItem ≠ [] := by
      intro h
      have := congrArg List.length h
      rw [hlen] at this
      simp at this
    have h14 : 14 ≤ (encodeItem it ++ rest.flatMap encodeItem).length := by
      rw [hlen]; omega
    rw [decodeItems, if_neg hne, dif_pos h14]
    have htake : (encodeItem it ++ rest.flatMap encodeItem).take 14 = encodeItem it := by
      rw [← encodeItem_length it]
      exact List.take_left _ _
    have hdrop : (encodeItem it ++ rest.flatMap encodeItem).drop 14 = rest.flatMap encodeItem := by
      rw [← encodeItem_length it]
      exact List.drop_left _ _
    rw [htake, hdrop, decodeItem_encodeItem, ih]

theorem joinNl_ne_nil {L : List (List Char)} (h : 2 ≤ L.length) : joinNl L ≠ [] := by
  rcases L with _ | ⟨a, _ | ⟨b, t⟩⟩
  · simp at h
  · simp at h
  · show a ++ '\n' :: joinNl (b :: t) ≠ []
    simp

/-! ## Claim C7: round-trip persistence -/

/-- C7: a `Store` save followed by a load reproduces the collection exactly —
the encoding round-trips every `TodoItem` field losslessly, for any
collection, including items with and without recurrence rules. -/
theorem claim7_round_trip :
    ∀ items : List TodoItem, loadStore (saveStore items) = some items := by
  intro items
  cases items with
  | nil => rfl
  | cons it rest =>
    unfold loadStore saveStore
    have hlenL : 14 ≤ ((it :: rest).flatMap encodeItem).length := by
      rw [List.flatMap_cons, List.length_append, encodeItem_length]
      omega
    have hLne : (it :: rest).flatMap encodeItem ≠ [] := by
      intro h
      rw [h] at hlenL
      simp at hlenL
    have hnonl : ∀ l ∈ (it :: rest).flatMap encodeItem, '\n' ∉ l := by
      intro l hl
      obtain ⟨j, hjm, hje⟩ := List.mem_flatMap.mp hl
      exact encodeItem_no_newline hje
    rw [if_neg (joinNl_ne_nil (by omega))]
    rw [splitNl_joinNl hLne hnonl]
    exact decodeItems_encode (it :: rest)

/-! ## Claim C8: atomic save and reported persistence failure -/

/-- C8: with the write-new-then-replace discipline, a save interrupted at any
point leaves the previously persisted main file intact (a reader never sees a
partial write), a completed save installs exactly the new content, and a save
failure after an in-memory `mark_done` surfaces as `PersistenceError` to the
caller — the same mutation is reported as success only when the save
succeeds. -/
theorem claim8_atomic_save :
    (∀ (fs : StoreFile) (content : List Char) (k : Nat),
      (crashedSave fs content k).main = fs.main) ∧
    (∀ (fs : StoreFile) (content : List Char),
      (completedSave fs content).main = some content) ∧
    (∀ (items : List TodoItem) (tid : Nat) (notes : List Char) (now : Date)
        (r : List TodoItem × Option TodoItem),
      markDone items tid notes now = .ok r →
      markDonePersist items tid notes now false = .error .PersistenceError) ∧
    (∀ (items : List TodoItem) (tid : Nat) (notes : List Char) (now : Date)
        (r : List TodoItem × Option TodoItem),
      markDone items tid notes now = .ok r →
      markDonePersist items tid notes now true = .ok r) := by
  refine ⟨fun fs content k => rfl, fun fs content => rfl, ?_, ?_⟩
  · intro items tid notes now r h
    rw [markDonePersist, h]
    rfl
  · intro items tid notes now r h
    rw [markDonePersist, h]
    rfl

/-- Witness for C8: the persistence outcomes at the sample store. -/
theorem claim8_witness :
    (crashedSave ⟨some ['a'], none⟩ ['b', 'c'] 1).main = some ['a'] ∧
    (completedSave ⟨some ['a'], none⟩ ['b', 'c']).main = some ['b', 'c'] ∧
    markDonePersist [sampleRecurring] 1 [] ⟨2024, 2, 2⟩ false
      = .error .PersistenceError ∧
    markDonePersist [sampleRecurring] 1 [] ⟨2024, 2, 2⟩ true
      = .ok (markedList [sampleRecurring] 1 [] ++ [sampleSucc ⟨2024, 2, 2⟩],
             some (sampleSucc ⟨2024, 2, 2⟩)) :=
  ⟨claim8_atomic_save.1 ⟨some ['a'], none⟩ ['b', 'c'] 1,
   claim8_atomic_save.2.1 ⟨some ['a'], none⟩ ['b', 'c'],
   claim8_atomic_save.2.2.1 [sampleRecurring] 1 [] ⟨2024, 2, 2⟩
     (markedList [sampleRecurring] 1 [] ++ [sampleSucc ⟨2024, 2, 2⟩],
      some (sampleSucc ⟨2024, 2, 2⟩)) rfl,
   claim8_atomic_save.2.2.2 [sampleRecurring] 1 [] ⟨2024, 2, 2⟩
     (markedList [sampleRecurring] 1 [] ++ [sampleSucc ⟨2024, 2, 2⟩],
      some (sampleSucc ⟨2024, 2, 2⟩)) rfl⟩

end AgentsToolkit
